import Mathlib

/-!
Verification of the Neotron-API path parser/decomposer.

Strings are modelled as lists of characters (`Str`).  The two `Path`
implementations of the repository (`src/path.rs` and `src/file.rs`) are
embedded in the namespaces `PathRs` and `FileRs`.  A `Path` value is just
the accepted backing string, since the Rust type is a transparent wrapper
around the borrowed string slice.
-/

namespace NeotronApi

/-- Borrowed UTF-8 strings are modelled as lists of characters. -/
abbrev Str := List Char

/-- Embedding of the `crate::Error` enumeration from `src/lib.rs`. -/
inductive Error where
  | FileNotFound
  | FileReadOnly
  | EndOfFile
  | Unimplemented
  | InvalidArg
  | BadFileHandle
  | DeviceSpecific
  | OutOfMemory
  | InvalidPath
deriving DecidableEq

/-- Embedding of Rust `char::is_control`: true exactly for the Unicode `Cc`
category, i.e. code points below 0x20 together with 0x7F..0x9F. -/
def isControl (c : Char) : Bool :=
  c.val < 32 || (127 ≤ c.val && c.val ≤ 159)

/-- Embedding of Rust `str::split_once(sep)`: split at the first occurrence
of `sep`, returning the parts before and after it, or `none` when `sep`
does not occur. -/
def splitOnce (sep : Char) : Str → Option (Str × Str)
  | [] => none
  | c :: cs =>
    if c = sep then some ([], cs)
    else
      match splitOnce sep cs with
      | some (pre, post) => some (c :: pre, post)
      | none => none

/-- Embedding of Rust `str::rsplit_once(sep)`: split at the last occurrence
of `sep`, returning the parts before and after it (in that order), or
`none` when `sep` does not occur. -/
def rsplitOnce (sep : Char) (s : Str) : Option (Str × Str) :=
  match splitOnce sep s.reverse with
  | some (pre, post) => some (post.reverse, pre.reverse)
  | none => none

/-- Embedding of Rust `str::starts_with(c)` for a single character. -/
def startsWith (c : Char) : Str → Bool
  | [] => false
  | x :: _ => x == c

namespace PathRs

/-- The character that separates one directory name from another. -/
def PATH_SEP : Char := '/'

/-- The character that separates drive specifiers from directories. -/
def DRIVE_SEP : Char := ':'

/-- Embedding of `Path::new` from `src/path.rs`. -/
def new (path_str : Str) : Except Error Str :=
  if path_str.isEmpty then .error .InvalidPath
  else
    match splitOnce DRIVE_SEP path_str with
    | some (ds, directory_path) =>
      if ds.contains PATH_SEP then .error .InvalidPath
      else if directory_path.contains DRIVE_SEP then .error .InvalidPath
      else if !directory_path.isEmpty && !(startsWith PATH_SEP directory_path) then
        .error .InvalidPath
      else if path_str.any isControl then .error .InvalidPath
      else .ok path_str
    | none =>
      if startsWith PATH_SEP path_str then .error .InvalidPath
      else if path_str.any isControl then .error .InvalidPath
      else .ok path_str

/-- Embedding of `Path::drive_specifier` from `src/path.rs`. -/
def drive_specifier (s : Str) : Option Str :=
  match splitOnce DRIVE_SEP s with
  | some (ds, _) => some ds
  | none => none

/-- Embedding of `Path::is_absolute_path` from `src/path.rs`. -/
def is_absolute_path (s : Str) : Bool :=
  (drive_specifier s).isSome

/-- Embedding of `Path::drive_path` from `src/path.rs`. -/
def drive_path (s : Str) : Option Str :=
  match splitOnce DRIVE_SEP s with
  | some (_, dp) => if dp.isEmpty then some [PATH_SEP] else some dp
  | none => some s

/-- Embedding of `Path::directory` from `src/path.rs`.  The empty portion
before the last separator is reported as the root `"/"`. -/
def directory (s : Str) : Option Str :=
  match drive_path s with
  | none => none
  | some dp =>
    match rsplitOnce PATH_SEP dp with
    | some (dir, _) => if dir.isEmpty then some [PATH_SEP] else some dir
    | none => some dp

/-- Embedding of `Path::filename` from `src/path.rs`. -/
def filename (s : Str) : Option Str :=
  match drive_path s with
  | none => none
  | some dp =>
    match rsplitOnce PATH_SEP dp with
    | some (_, fn) => if fn.isEmpty then none else some fn
    | none => some dp

/-- Embedding of `Path::extension` from `src/path.rs`. -/
def extension (s : Str) : Option Str :=
  match filename s with
  | none => none
  | some fn =>
    match rsplitOnce '.' fn with
    | some (_, ext) => some ext
    | none => none

/-- Embedding of `Path::as_str` from `src/path.rs`: the wrapped string. -/
def as_str (s : Str) : Str := s

/-- The quadruple of grammar components derived from a path. -/
def components (s : Str) : Option Str × Option Str × Option Str × Option Str :=
  (drive_specifier s, directory s, filename s, extension s)

/-- Concatenation of the derived components back together according to the
grammar `[drive ':'] directory '/' filename`, used to state the structural
round-trip property of section 8 of the specification. -/
def reconstruct (s : Str) : Str :=
  (match drive_specifier s with
   | some d => d ++ [DRIVE_SEP]
   | none => []) ++
  (match directory s with
   | some d => d
   | none => []) ++
  PATH_SEP ::
  (match filename s with
   | some f => f
   | none => [])

end PathRs

namespace FileRs

/-- The character that separates one directory name from another. -/
def PATH_SEP : Char := '/'

/-- The character that separates drive specifiers from directories. -/
def DRIVE_SEP : Char := ':'

/-- Embedding of `Path::new` from `src/file.rs`. -/
def new (path_str : Str) : Except Error Str :=
  if path_str.isEmpty then .error .InvalidPath
  else
    match splitOnce DRIVE_SEP path_str with
    | some (ds, directory_path) =>
      if ds.contains PATH_SEP then .error .InvalidPath
      else if directory_path.contains DRIVE_SEP then .error .InvalidPath
      else if !directory_path.isEmpty && !(startsWith PATH_SEP directory_path) then
        .error .InvalidPath
      else if path_str.any isControl then .error .InvalidPath
      else .ok path_str
    | none =>
      if startsWith PATH_SEP path_str then .error .InvalidPath
      else if path_str.any isControl then .error .InvalidPath
      else .ok path_str

/-- Embedding of `Path::drive_specifier` from `src/file.rs`. -/
def drive_specifier (s : Str) : Option Str :=
  match splitOnce DRIVE_SEP s with
  | some (ds, _) => some ds
  | none => none

/-- Embedding of `Path::is_absolute_path` from `src/file.rs`. -/
def is_absolute_path (s : Str) : Bool :=
  (drive_specifier s).isSome

/-- Embedding of `Path::drive_path` from `src/file.rs`. -/
def drive_path (s : Str) : Option Str :=
  match splitOnce DRIVE_SEP s with
  | some (_, dp) => if dp.isEmpty then some [PATH_SEP] else some dp
  | none => some s

/-- Embedding of `Path::directory` from `src/file.rs`.  Unlike the copy in
`src/path.rs`, the empty portion before the last separator is reported as
`none`, not as the root `"/"`. -/
def directory (s : Str) : Option Str :=
  match drive_path s with
  | none => none
  | some dp =>
    match rsplitOnce PATH_SEP dp with
    | some (dir, _) => if dir.isEmpty then none else some dir
    | none => some dp

/-- Embedding of `Path::filename` from `src/file.rs`. -/
def filename (s : Str) : Option Str :=
  match drive_path s with
  | none => none
  | some dp =>
    match rsplitOnce PATH_SEP dp with
    | some (_, fn) => if fn.isEmpty then none else some fn
    | none => some dp

/-- Embedding of `Path::extension` from `src/file.rs`. -/
def extension (s : Str) : Option Str :=
  match filename s with
  | none => none
  | some fn =>
    match rsplitOnce '.' fn with
    | some (_, ext) => some ext
    | none => none

end FileRs

theorem splitOnce_none_of {sep : Char} {s : Str} (h : sep ∉ s) :
    splitOnce sep s = none := by
  induction s with
  | nil => rfl
  | cons c cs ih =>
    simp only [List.mem_cons, not_or] at h
    have hc : ¬ c = sep := fun hh => h.1 hh.symm
    simp only [splitOnce]
    rw [if_neg hc, ih h.2]

theorem not_mem_of_splitOnce_none {sep : Char} {s : Str}
    (h : splitOnce sep s = none) : sep ∉ s := by
  induction s with
  | nil => simp
  | cons c cs ih =>
    intro hmem
    simp only [splitOnce] at h
    by_cases hc : c = sep
    · simp [hc] at h
    · rw [if_neg hc] at h
      cases hs : splitOnce sep cs with
      | some p => rw [hs] at h; obtain ⟨pre, post⟩ := p; simp at h
      | none =>
        rcases List.mem_cons.mp hmem with h1 | h2
        · exact hc h1.symm
        · exact ih hs h2

theorem splitOnce_spec {sep : Char} {s a b : Str}
    (h : splitOnce sep s = some (a, b)) : s = a ++ sep :: b ∧ sep ∉ a := by
  induction s generalizing a b with
  | nil => simp [splitOnce] at h
  | cons c cs ih =>
    simp only [splitOnce] at h
    by_cases hc : c = sep
    · rw [if_pos hc] at h
      simp only [Option.some.injEq, Prod.mk.injEq] at h
      obtain ⟨rfl, rfl⟩ := h
      simp [hc]
    · rw [if_neg hc] at h
      cases hs : splitOnce sep cs with
      | none => rw [hs] at h; simp at h
      | some p =>
        obtain ⟨pre, post⟩ := p
        rw [hs] at h
        simp only [Option.some.injEq, Prod.mk.injEq] at h
        obtain ⟨rfl, rfl⟩ := h
        obtain ⟨hcs, hnm⟩ := ih hs
        refine ⟨by simp [hcs], ?_⟩
        simp only [List.mem_cons, not_or]
        exact ⟨fun hx => hc hx.symm, hnm⟩

theorem splitOnce_of_eq {sep : Char} {a : Str} (b : Str) (h : sep ∉ a) :
    splitOnce sep (a ++ sep :: b) = some (a, b) := by
  induction a with
  | nil => simp [splitOnce]
  | cons c a' ih =>
    simp only [List.mem_cons, not_or] at h
    have hc : ¬ c = sep := fun hh => h.1 hh.symm
    simp only [List.cons_append, splitOnce, List.append_eq]
    rw [if_neg hc, ih h.2]

theorem rsplitOnce_none_of {sep : Char} {s : Str} (h : sep ∉ s) :
    rsplitOnce sep s = none := by
  unfold rsplitOnce
  rw [splitOnce_none_of (by simpa using h)]

theorem not_mem_of_rsplitOnce_none {sep : Char} {s : Str}
    (h : rsplitOnce sep s = none) : sep ∉ s := by
  unfold rsplitOnce at h
  cases hs : splitOnce sep s.reverse with
  | some p => rw [hs] at h; obtain ⟨pre, post⟩ := p; simp at h
  | none => simpa using not_mem_of_splitOnce_none hs

theorem rsplitOnce_spec {sep : Char} {s a b : Str}
    (h : rsplitOnce sep s = some (a, b)) : s = a ++ sep :: b ∧ sep ∉ b := by
  unfold rsplitOnce at h
  cases hs : splitOnce sep s.reverse with
  | none => rw [hs] at h; simp at h
  | some p =>
    obtain ⟨pre, post⟩ := p
    rw [hs] at h
    simp only [Option.some.injEq, Prod.mk.injEq] at h
    obtain ⟨rfl, rfl⟩ := h
    obtain ⟨hrev, hnm⟩ := splitOnce_spec hs
    constructor
    · have := congrArg List.reverse hrev
      simpa using this
    · simpa using hnm

theorem rsplitOnce_of_eq {sep : Char} {b : Str} (a : Str) (h : sep ∉ b) :
    rsplitOnce sep (a ++ sep :: b) = some (a, b) := by
  unfold rsplitOnce
  have hrev : (a ++ sep :: b).reverse = b.reverse ++ sep :: a.reverse := by simp
  rw [hrev, splitOnce_of_eq _ (by simpa using h)]
  simp

theorem pathrs_drive_specifier_split {a : Str} (b : Str) (h : (':' : Char) ∉ a) :
    PathRs.drive_specifier (a ++ ':' :: b) = some a := by
  unfold PathRs.drive_specifier
  simp only [PathRs.DRIVE_SEP]
  rw [splitOnce_of_eq b h]

theorem pathrs_drive_specifier_none {s : Str} (h : (':' : Char) ∉ s) :
    PathRs.drive_specifier s = none := by
  unfold PathRs.drive_specifier
  simp only [PathRs.DRIVE_SEP]
  rw [splitOnce_none_of h]

theorem pathrs_drive_path_split {a : Str} (b : Str) (h : (':' : Char) ∉ a) :
    PathRs.drive_path (a ++ ':' :: b) = if b.isEmpty then some ['/'] else some b := by
  unfold PathRs.drive_path
  simp only [PathRs.DRIVE_SEP, PathRs.PATH_SEP]
  rw [splitOnce_of_eq b h]

theorem pathrs_drive_path_none {s : Str} (h : (':' : Char) ∉ s) :
    PathRs.drive_path s = some s := by
  unfold PathRs.drive_path
  simp only [PathRs.DRIVE_SEP]
  rw [splitOnce_none_of h]

theorem pathrs_directory_of_drive_path {s dp : Str} (h : PathRs.drive_path s = some dp) :
    PathRs.directory s =
      match rsplitOnce '/' dp with
      | some (dir, _) => if dir.isEmpty then some ['/'] else some dir
      | none => some dp := by
  unfold PathRs.directory
  simp only [PathRs.PATH_SEP]
  rw [h]

theorem pathrs_filename_of_drive_path {s dp : Str} (h : PathRs.drive_path s = some dp) :
    PathRs.filename s =
      match rsplitOnce '/' dp with
      | some (_, fn) => if fn.isEmpty then none else some fn
      | none => some dp := by
  unfold PathRs.filename
  simp only [PathRs.PATH_SEP]
  rw [h]

theorem pathrs_directory_split {s dp d f : Str} (h : PathRs.drive_path s = some dp)
    (hr : rsplitOnce '/' dp = some (d, f)) :
    PathRs.directory s = if d.isEmpty then some ['/'] else some d := by
  unfold PathRs.directory
  simp only [PathRs.PATH_SEP, h, hr]

theorem pathrs_directory_no_sep {s dp : Str} (h : PathRs.drive_path s = some dp)
    (hn : ('/' : Char) ∉ dp) : PathRs.directory s = some dp := by
  unfold PathRs.directory
  simp only [PathRs.PATH_SEP, h, rsplitOnce_none_of hn]

theorem pathrs_filename_split {s dp d f : Str} (h : PathRs.drive_path s = some dp)
    (hr : rsplitOnce '/' dp = some (d, f)) :
    PathRs.filename s = if f.isEmpty then none else some f := by
  unfold PathRs.filename
  simp only [PathRs.PATH_SEP, h, hr]

theorem pathrs_filename_no_sep {s dp : Str} (h : PathRs.drive_path s = some dp)
    (hn : ('/' : Char) ∉ dp) : PathRs.filename s = some dp := by
  unfold PathRs.filename
  simp only [PathRs.PATH_SEP, h, rsplitOnce_none_of hn]

theorem filers_drive_path_eq (s : Str) : FileRs.drive_path s = PathRs.drive_path s := rfl

theorem filers_directory_split {s dp d f : Str} (h : FileRs.drive_path s = some dp)
    (hr : rsplitOnce '/' dp = some (d, f)) :
    FileRs.directory s = if d.isEmpty then none else some d := by
  unfold FileRs.directory
  simp only [FileRs.PATH_SEP, h, hr]

theorem filers_directory_no_sep {s dp : Str} (h : FileRs.drive_path s = some dp)
    (hn : ('/' : Char) ∉ dp) : FileRs.directory s = some dp := by
  unfold FileRs.directory
  simp only [FileRs.PATH_SEP, h, rsplitOnce_none_of hn]

theorem pathrs_extension_congr {s t : Str} (h : PathRs.filename s = PathRs.filename t) :
    PathRs.extension s = PathRs.extension t := by
  unfold PathRs.extension
  rw [h]

theorem pathrs_extension_none {s : Str} (h : PathRs.filename s = none) :
    PathRs.extension s = none := by
  unfold PathRs.extension
  rw [h]

theorem pathrs_extension_split {s fn bn ex : Str} (h : PathRs.filename s = some fn)
    (hr : rsplitOnce '.' fn = some (bn, ex)) : PathRs.extension s = some ex := by
  unfold PathRs.extension
  simp only [h, hr]

theorem pathrs_extension_no_dot {s fn : Str} (h : PathRs.filename s = some fn)
    (hd : ('.' : Char) ∉ fn) : PathRs.extension s = none := by
  unfold PathRs.extension
  simp only [h, rsplitOnce_none_of hd]

theorem pathrs_new_ok_rel {s : Str} (h0 : s ≠ []) (h1 : (':' : Char) ∉ s)
    (h2 : startsWith '/' s = false) (h3 : s.any isControl = false) :
    PathRs.new s = .ok s := by
  unfold PathRs.new
  simp only [PathRs.DRIVE_SEP, PathRs.PATH_SEP]
  rw [splitOnce_none_of h1]
  simp [h0, h2, h3]

theorem pathrs_new_ok_abs {a b : Str} (h1 : (':' : Char) ∉ a) (h2 : ('/' : Char) ∉ a)
    (h3 : (':' : Char) ∉ b) (h4 : b = [] ∨ startsWith '/' b = true)
    (h5 : (a ++ ':' :: b).any isControl = false) :
    PathRs.new (a ++ ':' :: b) = .ok (a ++ ':' :: b) := by
  unfold PathRs.new
  simp only [PathRs.DRIVE_SEP, PathRs.PATH_SEP]
  rw [splitOnce_of_eq b h1]
  have hne : a ++ ':' :: b ≠ [] := by simp
  have hca : a.contains '/' = false := by simpa using h2
  have hcb : b.contains ':' = false := by simpa using h3
  have hsw : (!b.isEmpty && !(startsWith '/' b)) = false := by
    rcases h4 with rfl | h4
    · simp
    · simp [h4]
  simp [hne, hca, hcb, hsw, h5, h2, h3]

theorem pathrs_new_ok_inv {s p : Str} (h : PathRs.new s = .ok p) :
    p = s ∧ s ≠ [] ∧ s.any isControl = false ∧
      (((':' : Char) ∉ s ∧ startsWith '/' s = false) ∨
        ∃ a b, s = a ++ ':' :: b ∧ (':' : Char) ∉ a ∧ ('/' : Char) ∉ a ∧
          (':' : Char) ∉ b ∧ (b = [] ∨ startsWith '/' b = true)) := by
  unfold PathRs.new at h
  simp only [PathRs.DRIVE_SEP, PathRs.PATH_SEP] at h
  by_cases he : s.isEmpty
  · rw [if_pos he] at h; exact absurd h (by simp)
  rw [if_neg he] at h
  have hne : s ≠ [] := by simpa using he
  cases hs : splitOnce ':' s with
  | none =>
    simp only [hs] at h
    have h1 := not_mem_of_splitOnce_none hs
    split_ifs at h with hsw hctl
    have hp : p = s := by injection h with h'; exact h'.symm
    exact ⟨hp, hne, by simpa using hctl, Or.inl ⟨h1, by simpa using hsw⟩⟩
  | some q =>
    obtain ⟨a, b⟩ := q
    simp only [hs] at h
    obtain ⟨hseq, h1⟩ := splitOnce_spec hs
    split_ifs at h with hca hcb hrel hctl
    have hp : p = s := by injection h with h'; exact h'.symm
    refine ⟨hp, hne, by simpa using hctl, Or.inr ⟨a, b, hseq, h1, ?_, ?_, ?_⟩⟩
    · simpa using hca
    · simpa using hcb
    · by_cases hb : b = []
      · exact Or.inl hb
      · right
        have hbe : b.isEmpty = false := by simpa using hb
        simp only [Bool.not_eq_true, Bool.and_eq_false_iff, Bool.not_eq_false,
          Bool.not_eq_false'] at hrel
        rcases hrel with h' | h'
        · rw [hbe] at h'; exact absurd h' (by simp)
        · exact h'

theorem pathrs_new_total (s : Str) :
    PathRs.new s = .ok s ∨ PathRs.new s = .error .InvalidPath := by
  unfold PathRs.new
  cases hs : splitOnce PathRs.DRIVE_SEP s with
  | none => simp only [hs]; split_ifs <;> simp
  | some q => obtain ⟨a, b⟩ := q; simp only [hs]; split_ifs <;> simp

theorem mem_of_getLast?_eq {l : Str} {a : Char} (h : l.getLast? = some a) : a ∈ l := by
  obtain ⟨hne, rfl⟩ := List.mem_getLast?_eq_getLast (Option.mem_def.mpr h)
  exact List.getLast_mem hne

theorem pathrs_drive_path_isSome (s : Str) : (PathRs.drive_path s).isSome = true := by
  unfold PathRs.drive_path
  cases hs : splitOnce PathRs.DRIVE_SEP s with
  | none => simp only [hs]; rfl
  | some q => obtain ⟨a, b⟩ := q; simp only [hs]; split_ifs <;> rfl

theorem pathrs_drive_path_ne_nil {s dp : Str} (h0 : s ≠ []) (h : PathRs.drive_path s = some dp) :
    dp ≠ [] := by
  unfold PathRs.drive_path at h
  cases hs : splitOnce PathRs.DRIVE_SEP s with
  | none =>
    simp only [hs] at h
    obtain rfl : s = dp := by injection h
    exact h0
  | some q =>
    obtain ⟨a, b⟩ := q
    simp only [hs] at h
    by_cases hb : b.isEmpty
    · rw [if_pos hb] at h
      obtain rfl : ['/'] = dp := by injection h
      simp
    · rw [if_neg hb] at h
      obtain rfl : b = dp := by injection h
      simpa using hb

theorem pathrs_drive_path_cases {s dp : Str} (h : PathRs.drive_path s = some dp) :
    ((':' : Char) ∉ s ∧ dp = s) ∨
      ∃ a b, s = a ++ ':' :: b ∧ (':' : Char) ∉ a ∧
        ((b = [] ∧ dp = ['/']) ∨ (b ≠ [] ∧ dp = b)) := by
  unfold PathRs.drive_path at h
  simp only [PathRs.DRIVE_SEP, PathRs.PATH_SEP] at h
  cases hs : splitOnce ':' s with
  | none =>
    simp only [hs] at h
    left
    exact ⟨not_mem_of_splitOnce_none hs, by injection h with h2; exact h2.symm⟩
  | some q =>
    obtain ⟨a, b⟩ := q
    simp only [hs] at h
    obtain ⟨hseq, hna⟩ := splitOnce_spec hs
    right
    refine ⟨a, b, hseq, hna, ?_⟩
    by_cases hb : b.isEmpty
    · rw [if_pos hb] at h
      exact Or.inl ⟨by simpa using hb, by injection h with h2; exact h2.symm⟩
    · rw [if_neg hb] at h
      exact Or.inr ⟨by simpa using hb, by injection h with h2; exact h2.symm⟩

theorem pathrs_new_err_abs {a b : Str} (h1 : (':' : Char) ∉ a)
    (hbad : ('/' : Char) ∈ a ∨ (':' : Char) ∈ b ∨ (b ≠ [] ∧ startsWith '/' b = false)) :
    PathRs.new (a ++ ':' :: b) = .error .InvalidPath := by
  unfold PathRs.new
  simp only [PathRs.DRIVE_SEP, PathRs.PATH_SEP]
  simp only [splitOnce_of_eq b h1]
  split_ifs with c1 c2 c3 c4 c5 <;> try rfl
  exfalso
  rcases hbad with hm | hm | ⟨hb, hsw⟩
  · exact c2 (by simpa using hm)
  · exact c3 (by simpa using hm)
  · exact c4 (by simp [hb, hsw])

theorem pathrs_new_err_rooted {s : Str} (h1 : (':' : Char) ∉ s)
    (h2 : startsWith '/' s = true) : PathRs.new s = .error .InvalidPath := by
  unfold PathRs.new
  simp only [PathRs.DRIVE_SEP, PathRs.PATH_SEP]
  simp only [splitOnce_none_of h1]
  split_ifs <;> simp_all

theorem pathrs_new_err_control {s : Str} (h : s.any isControl = true) :
    PathRs.new s = .error .InvalidPath := by
  rcases pathrs_new_total s with hok | herr
  · obtain ⟨-, -, hctl, -⟩ := pathrs_new_ok_inv hok
    rw [h] at hctl
    exact Bool.noConfusion hctl
  · exact herr

/-- Claim C2: the input string `"HD0:"` is accepted by `Path::new`, and the
constructed path satisfies `is_absolute_path() = true`,
`drive_specifier() = some "HD0"`, `drive_path() = some "/"`,
`directory() = some "/"`, `filename() = none` and `extension() = none`
(the `src/path.rs` implementation, which the specification scenario describes). -/
theorem claim_C2 :
    PathRs.new ['H', 'D', '0', ':'] = .ok ['H', 'D', '0', ':'] ∧
    PathRs.is_absolute_path ['H', 'D', '0', ':'] = true ∧
    PathRs.drive_specifier ['H', 'D', '0', ':'] = some ['H', 'D', '0'] ∧
    PathRs.drive_path ['H', 'D', '0', ':'] = some ['/'] ∧
    PathRs.directory ['H', 'D', '0', ':'] = some ['/'] ∧
    PathRs.filename ['H', 'D', '0', ':'] = none ∧
    PathRs.extension ['H', 'D', '0', ':'] = none :=
  ⟨rfl, rfl, rfl, rfl, rfl, rfl, rfl⟩

/-- Claim C5: for every constructed path, `is_absolute_path()` agrees with
`drive_specifier().is_some()`, and it is true exactly when the underlying
string contains a `':'`. -/
theorem claim_C5 (s p : Str) (h : PathRs.new s = .ok p) :
    PathRs.is_absolute_path p = (PathRs.drive_specifier p).isSome ∧
    (PathRs.is_absolute_path p = true ↔ (':' : Char) ∈ p) := by
  obtain ⟨hp, -⟩ := pathrs_new_ok_inv h
  subst hp
  refine ⟨rfl, ?_⟩
  unfold PathRs.is_absolute_path
  cases hs : splitOnce ':' p with
  | none =>
    have hns := not_mem_of_splitOnce_none hs
    simp [pathrs_drive_specifier_none hns, hns]
  | some q =>
    obtain ⟨a, b⟩ := q
    obtain ⟨hseq, hna⟩ := splitOnce_spec hs
    subst hseq
    simp [pathrs_drive_specifier_split b hna]

/-- Witness for C5 at the concrete accepted input `"HD0:/F"`. -/
theorem claim_C5_witness :
    PathRs.is_absolute_path ['H', 'D', '0', ':', '/', 'F'] = true ↔
      (':' : Char) ∈ ['H', 'D', '0', ':', '/', 'F'] :=
  (claim_C5 ['H', 'D', '0', ':', '/', 'F'] ['H', 'D', '0', ':', '/', 'F'] rfl).2

/-- Claim C6: `drive_path()` never returns `none` on a constructed path; on a
string of the form `a ++ ":" ++ b` (with the first `':'` after `a`) it returns
`b`, or the synthetic root `"/"` when `b` is empty; on a string without `':'`
it returns the whole string. -/
theorem claim_C6 (s p : Str) (_h : PathRs.new s = .ok p) :
    (PathRs.drive_path p).isSome = true ∧
    (∀ a b : Str, p = a ++ ':' :: b → (':' : Char) ∉ a →
      PathRs.drive_path p = some (if b.isEmpty then ['/'] else b)) ∧
    ((':' : Char) ∉ p → PathRs.drive_path p = some p) := by
  refine ⟨pathrs_drive_path_isSome p, ?_, fun hn => pathrs_drive_path_none hn⟩
  intro a b hp hna
  rw [hp, pathrs_drive_path_split b hna]
  by_cases hb : b.isEmpty
  · rw [if_pos hb, if_pos hb]
  · rw [if_neg hb, if_neg hb]

/-- Witness for C6 at the concrete accepted input `"A:"` (a bare drive):
its drive path is the synthetic root `"/"`. -/
theorem claim_C6_witness : PathRs.drive_path ['A', ':'] = some ['/'] :=
  (claim_C6 ['A', ':'] ['A', ':'] rfl).2.1 ['A'] [] rfl (by decide)

/-- Claim C7: when the drive path of a constructed path contains no `'/'`,
both `directory()` and `filename()` return the entire drive path. -/
theorem claim_C7 (s p dp : Str) (_h : PathRs.new s = .ok p)
    (hdp : PathRs.drive_path p = some dp) (hn : ('/' : Char) ∉ dp) :
    PathRs.directory p = some dp ∧ PathRs.filename p = some dp :=
  ⟨pathrs_directory_no_sep hdp hn, pathrs_filename_no_sep hdp hn⟩

/-- Witness for C7 at the concrete accepted input `"A.T"` (a bare relative
name): it is its own directory and its own filename. -/
theorem claim_C7_witness :
    PathRs.directory ['A', '.', 'T'] = some ['A', '.', 'T'] ∧
    PathRs.filename ['A', '.', 'T'] = some ['A', '.', 'T'] :=
  claim_C7 ['A', '.', 'T'] ['A', '.', 'T'] ['A', '.', 'T'] rfl rfl (by decide)

/-- Claim C9: `extension()` is the portion of `filename()` after its last
`'.'` when a filename is present and contains a `'.'`, and `none` otherwise. -/
theorem claim_C9 (s p : Str) (_h : PathRs.new s = .ok p) :
    (PathRs.filename p = none → PathRs.extension p = none) ∧
    ∀ f, PathRs.filename p = some f →
      ((('.' : Char) ∉ f → PathRs.extension p = none) ∧
        ∀ a b : Str, f = a ++ '.' :: b → ('.' : Char) ∉ b →
          PathRs.extension p = some b) := by
  refine ⟨fun hf => pathrs_extension_none hf,
    fun f hf => ⟨fun hd => pathrs_extension_no_dot hf hd, ?_⟩⟩
  intro a b hfe hd
  have hr : rsplitOnce '.' f = some (a, b) := by
    rw [hfe]
    exact rsplitOnce_of_eq a hd
  exact pathrs_extension_split hf hr

/-- Witness for C9 at the concrete accepted input `".TXT"`: the filename is
`".TXT"` itself and the extension is `"TXT"` despite the empty basename. -/
theorem claim_C9_witness :
    PathRs.extension ['.', 'T', 'X', 'T'] = some ['T', 'X', 'T'] :=
  (((claim_C9 ['.', 'T', 'X', 'T'] ['.', 'T', 'X', 'T'] rfl).2
    ['.', 'T', 'X', 'T'] rfl).2) [] ['T', 'X', 'T'] rfl (by decide)

/-- Claim C10: a successfully constructed path wraps the original string
unchanged, so `as_str()` returns exactly the input string. -/
theorem claim_C10 (s p : Str) (h : PathRs.new s = .ok p) : PathRs.as_str p = s :=
  (pathrs_new_ok_inv h).1

/-- Witness for C10 at the concrete accepted input `"A"`. -/
theorem claim_C10_witness : PathRs.as_str ['A'] = ['A'] :=
  claim_C10 ['A'] ['A'] rfl

/-- Claim C8: `filename()` of a constructed path is `none` exactly when the
drive path ends in the separator `'/'`, and a returned filename is never the
empty string. -/
theorem claim_C8 (s p dp : Str) (h : PathRs.new s = .ok p)
    (hdp : PathRs.drive_path p = some dp) :
    (PathRs.filename p = none ↔ dp.getLast? = some '/') ∧
    (∀ f, PathRs.filename p = some f → f ≠ []) := by
  obtain ⟨hp, hne, -, -⟩ := pathrs_new_ok_inv h
  subst hp
  have hdpne : dp ≠ [] := pathrs_drive_path_ne_nil hne hdp
  cases hr : rsplitOnce '/' dp with
  | none =>
    have hns := not_mem_of_rsplitOnce_none hr
    rw [pathrs_filename_no_sep hdp hns]
    constructor
    · constructor
      · intro hx; exact Option.noConfusion hx
      · intro hl; exact absurd (mem_of_getLast?_eq hl) hns
    · intro f hf
      obtain rfl : dp = f := by injection hf
      exact hdpne
  | some q =>
    obtain ⟨d, f⟩ := q
    obtain ⟨hdpe, hnf⟩ := rsplitOnce_spec hr
    rw [pathrs_filename_split hdp hr]
    by_cases hfe : f.isEmpty
    · obtain rfl : f = [] := by simpa using hfe
      rw [if_pos hfe]
      subst hdpe
      refine ⟨?_, ?_⟩
      · simp [List.getLast?_concat]
      · intro g hg; exact Option.noConfusion hg
    · have hfne : f ≠ [] := by simpa using hfe
      rw [if_neg hfe]
      subst hdpe
      refine ⟨?_, ?_⟩
      · constructor
        · intro hx; exact Option.noConfusion hx
        · intro hl
          have hgl : (d ++ '/' :: f).getLast? = f.getLast? := by
            have hsplit : d ++ '/' :: f = (d ++ ['/']) ++ f := by simp
            rw [hsplit, List.getLast?_append_of_ne_nil _ hfne]
          rw [hgl] at hl
          exact absurd (mem_of_getLast?_eq hl) hnf
      · intro g hg
        obtain rfl : f = g := by injection hg
        exact hfne

/-- Witness for C8 at the concrete accepted input `"A/"` (a relative
directory): its drive path `"A/"` ends in `'/'` and the filename is none. -/
theorem claim_C8_witness :
    PathRs.filename ['A', '/'] = none ↔ (['A', '/'] : Str).getLast? = some '/' :=
  (claim_C8 ['A', '/'] ['A', '/'] ['A', '/'] rfl rfl).1

/-- Claim C1: `Path::new(s)` returns `InvalidPath` exactly when `s` is empty,
or `s` splits at its first `':'` into a drive part containing `'/'`, or a
remainder containing another `':'`, or a non-empty remainder not starting
with `'/'`, or `s` has no `':'` and starts with `'/'`, or `s` contains a
control character; every other string is accepted unchanged. -/
theorem claim_C1 (s : Str) :
    (PathRs.new s = .error .InvalidPath ↔
      (s = [] ∨
        (∃ a b : Str, s = a ++ ':' :: b ∧ (':' : Char) ∉ a ∧
          (('/' : Char) ∈ a ∨ (':' : Char) ∈ b ∨ (b ≠ [] ∧ startsWith '/' b = false))) ∨
        ((':' : Char) ∉ s ∧ startsWith '/' s = true) ∨
        (∃ c ∈ s, isControl c = true))) ∧
    (PathRs.new s = .ok s ∨ PathRs.new s = .error .InvalidPath) := by
  refine ⟨⟨?_, ?_⟩, pathrs_new_total s⟩
  · intro herr
    by_contra hP
    simp only [not_or] at hP
    obtain ⟨hA, hB, hC, hD⟩ := hP
    have hctl : s.any isControl = false := by
      cases hany : s.any isControl with
      | false => rfl
      | true =>
        exfalso
        obtain ⟨c, hc, hcc⟩ := List.any_eq_true.mp hany
        exact hD ⟨c, hc, hcc⟩
    cases hs : splitOnce ':' s with
    | none =>
      have hns := not_mem_of_splitOnce_none hs
      have hsw : startsWith '/' s = false := by
        cases hw : startsWith '/' s with
        | false => rfl
        | true => exact absurd ⟨hns, hw⟩ hC
      have hok := pathrs_new_ok_rel hA hns hsw hctl
      rw [hok] at herr
      exact Except.noConfusion herr
    | some q =>
      obtain ⟨a, b⟩ := q
      obtain ⟨hseq, hna⟩ := splitOnce_spec hs
      have h1 : ('/' : Char) ∉ a := fun hm => hB ⟨a, b, hseq, hna, Or.inl hm⟩
      have h2 : (':' : Char) ∉ b := fun hm => hB ⟨a, b, hseq, hna, Or.inr (Or.inl hm)⟩
      have h3 : b = [] ∨ startsWith '/' b = true := by
        by_cases hb : b = []
        · exact Or.inl hb
        right
        cases hw : startsWith '/' b with
        | true => rfl
        | false => exact absurd ⟨a, b, hseq, hna, Or.inr (Or.inr ⟨hb, hw⟩)⟩ hB
      have hok := pathrs_new_ok_abs hna h1 h2 h3 (by rw [← hseq]; exact hctl)
      rw [hseq, hok] at herr
      exact Except.noConfusion herr
  · intro hP
    rcases hP with rfl | ⟨a, b, hseq, hna, hinner⟩ | ⟨hns, hsw⟩ | ⟨c, hc, hcc⟩
    · rfl
    · rw [hseq]
      exact pathrs_new_err_abs hna hinner
    · exact pathrs_new_err_rooted hns hsw
    · exact pathrs_new_err_control (List.any_eq_true.mpr ⟨c, hc, hcc⟩)

/-- Witness for C1 at the concrete rejected input `"/A"` (rooted but with no
drive specifier). -/
theorem claim_C1_witness : PathRs.new ['/', 'A'] = .error .InvalidPath :=
  (claim_C1 ['/', 'A']).1.mpr (Or.inr (Or.inr (Or.inl ⟨by decide, rfl⟩)))

/-- Counterexample to C3: both implementations accept `"HD0:"`, yet their
`directory()` queries disagree there: the `src/path.rs` copy returns the
root `"/"` while the `src/file.rs` copy returns none. -/
theorem claim_C3_counterexample :
    PathRs.new ['H', 'D', '0', ':'] = .ok ['H', 'D', '0', ':'] ∧
    FileRs.new ['H', 'D', '0', ':'] = .ok ['H', 'D', '0', ':'] ∧
    PathRs.directory ['H', 'D', '0', ':'] = some ['/'] ∧
    FileRs.directory ['H', 'D', '0', ':'] = none ∧
    PathRs.directory ['H', 'D', '0', ':'] ≠ FileRs.directory ['H', 'D', '0', ':'] :=
  ⟨rfl, rfl, rfl, rfl, by decide⟩

/-- Claim C3 as amended: the two `Path` implementations agree on `new`,
`drive_specifier`, `is_absolute_path`, `drive_path`, `filename` and
`extension` for every input string, and their `directory` queries agree as
well except when the portion of the drive path before its last `'/'` is
empty, in which case `src/path.rs` reports the root `"/"` while
`src/file.rs` reports none. -/
theorem claim_C3_amended (s : Str) :
    FileRs.new s = PathRs.new s ∧
    FileRs.drive_specifier s = PathRs.drive_specifier s ∧
    FileRs.is_absolute_path s = PathRs.is_absolute_path s ∧
    FileRs.drive_path s = PathRs.drive_path s ∧
    FileRs.filename s = PathRs.filename s ∧
    FileRs.extension s = PathRs.extension s ∧
    ∀ dp, PathRs.drive_path s = some dp →
      ((∀ f, rsplitOnce '/' dp = some ([], f) →
          PathRs.directory s = some ['/'] ∧ FileRs.directory s = none) ∧
        (∀ d f, rsplitOnce '/' dp = some (d, f) → d ≠ [] →
          FileRs.directory s = PathRs.directory s) ∧
        (rsplitOnce '/' dp = none → FileRs.directory s = PathRs.directory s)) := by
  refine ⟨rfl, rfl, rfl, rfl, rfl, rfl, ?_⟩
  intro dp hdp
  have hdpf : FileRs.drive_path s = some dp := hdp
  refine ⟨?_, ?_, ?_⟩
  · intro f hr
    constructor
    · rw [pathrs_directory_split hdp hr]; rfl
    · rw [filers_directory_split hdpf hr]; rfl
  · intro d f hr hd
    rw [filers_directory_split hdpf hr, pathrs_directory_split hdp hr]
    have hde : d.isEmpty = false := by simpa using hd
    rw [hde]; rfl
  · intro hr
    rw [filers_directory_no_sep hdpf (not_mem_of_rsplitOnce_none hr),
      pathrs_directory_no_sep hdp (not_mem_of_rsplitOnce_none hr)]

/-- Witness for C3 (amended) at the concrete input `"HD0:"`, exhibiting the
one remaining divergence between the two implementations. -/
theorem claim_C3_amended_witness :
    PathRs.directory ['H', 'D', '0', ':'] = some ['/'] ∧
    FileRs.directory ['H', 'D', '0', ':'] = none :=
  ((claim_C3_amended ['H', 'D', '0', ':']).2.2.2.2.2.2 ['/'] rfl).1 [] rfl

theorem any_isControl_false_of_subset {r s : Str} (hs : s.any isControl = false)
    (hsub : ∀ c ∈ r, c ∈ s ∨ c = '/') : r.any isControl = false := by
  rw [List.any_eq_false] at hs ⊢
  intro c hc
  rcases hsub c hc with hm | rfl
  · exact hs c hm
  · decide

theorem pathrs_roundtrip_rel_bare {s : Str}
    (hne : s ≠ []) (hns : (':' : Char) ∉ s) (hnsl : ('/' : Char) ∉ s)
    (hctl : s.any isControl = false) :
    PathRs.new (PathRs.reconstruct s) = .ok (PathRs.reconstruct s) ∧
    PathRs.components (PathRs.reconstruct s) = PathRs.components s := by
  have hdp : PathRs.drive_path s = some s := pathrs_drive_path_none hns
  have hds : PathRs.drive_specifier s = none := pathrs_drive_specifier_none hns
  have hdir : PathRs.directory s = some s := pathrs_directory_no_sep hdp hnsl
  have hfn : PathRs.filename s = some s := pathrs_filename_no_sep hdp hnsl
  have hrec : PathRs.reconstruct s = s ++ '/' :: s := by
    unfold PathRs.reconstruct
    simp only [hds, hdir, hfn]
    simp [PathRs.PATH_SEP]
  rw [hrec]
  have hns' : (':' : Char) ∉ s ++ '/' :: s := by
    simp only [List.mem_append, List.mem_cons, not_or]
    exact ⟨hns, by decide, hns⟩
  have hne' : s ++ '/' :: s ≠ [] := by simp
  have hsw' : startsWith '/' (s ++ '/' :: s) = false := by
    cases s with
    | nil => exact absurd rfl hne
    | cons x t =>
      have hx : x ≠ '/' := by
        intro hx
        exact hnsl (hx ▸ List.mem_cons_self x t)
      simpa [startsWith] using hx
  have hctl' : (s ++ '/' :: s).any isControl = false := by
    apply any_isControl_false_of_subset hctl
    intro c hc
    rcases List.mem_append.mp hc with hm | hm
    · exact Or.inl hm
    · rcases List.mem_cons.mp hm with rfl | hm
      · exact Or.inr rfl
      · exact Or.inl hm
  refine ⟨pathrs_new_ok_rel hne' hns' hsw' hctl', ?_⟩
  have hds' : PathRs.drive_specifier (s ++ '/' :: s) = none :=
    pathrs_drive_specifier_none hns'
  have hdp' : PathRs.drive_path (s ++ '/' :: s) = some (s ++ '/' :: s) :=
    pathrs_drive_path_none hns'
  have hr1 : rsplitOnce '/' (s ++ '/' :: s) = some (s, s) := rsplitOnce_of_eq s hnsl
  have hse : s.isEmpty = false := by simpa using hne
  have hdir' : PathRs.directory (s ++ '/' :: s) = some s := by
    rw [pathrs_directory_split hdp' hr1, hse]; rfl
  have hfn' : PathRs.filename (s ++ '/' :: s) = some s := by
    rw [pathrs_filename_split hdp' hr1, hse]; rfl
  have hext : PathRs.extension (s ++ '/' :: s) = PathRs.extension s :=
    pathrs_extension_congr (hfn'.trans hfn.symm)
  unfold PathRs.components
  rw [hds', hdir', hfn', hds, hdir, hfn, hext]

theorem pathrs_roundtrip_abs_root {s a f : Str}
    (hds : PathRs.drive_specifier s = some a)
    (hdp : PathRs.drive_path s = some ('/' :: f))
    (hnf : ('/' : Char) ∉ f)
    (hna : (':' : Char) ∉ a) (h1 : ('/' : Char) ∉ a) (h2 : (':' : Char) ∉ f)
    (hctlr : (a ++ ':' :: '/' :: '/' :: f).any isControl = false) :
    PathRs.new (PathRs.reconstruct s) = .ok (PathRs.reconstruct s) ∧
    PathRs.components (PathRs.reconstruct s) = PathRs.components s := by
  have hr0 : rsplitOnce '/' ('/' :: f) = some ([], f) := rsplitOnce_of_eq [] hnf
  have hdir : PathRs.directory s = some ['/'] := by
    rw [pathrs_directory_split hdp hr0]; rfl
  have hfn : PathRs.filename s = if f.isEmpty then none else some f :=
    pathrs_filename_split hdp hr0
  have hrec : PathRs.reconstruct s = a ++ ':' :: '/' :: '/' :: f := by
    unfold PathRs.reconstruct
    simp only [hds, hdir, hfn]
    by_cases hf : f.isEmpty
    · obtain rfl : f = [] := by simpa using hf
      simp [PathRs.DRIVE_SEP, PathRs.PATH_SEP]
    · simp [PathRs.DRIVE_SEP, PathRs.PATH_SEP, hf]
  rw [hrec]
  have h2' : (':' : Char) ∉ ('/' :: '/' :: f : Str) := by
    simp only [List.mem_cons, not_or]
    exact ⟨by decide, by decide, h2⟩
  refine ⟨pathrs_new_ok_abs hna h1 h2' (Or.inr rfl) hctlr, ?_⟩
  have hds' : PathRs.drive_specifier (a ++ ':' :: '/' :: '/' :: f) = some a :=
    pathrs_drive_specifier_split _ hna
  have hdp' : PathRs.drive_path (a ++ ':' :: '/' :: '/' :: f) = some ('/' :: '/' :: f) := by
    rw [pathrs_drive_path_split _ hna]; rfl
  have hr1 : rsplitOnce '/' ('/' :: '/' :: f) = some (['/'], f) := rsplitOnce_of_eq ['/'] hnf
  have hdir' : PathRs.directory (a ++ ':' :: '/' :: '/' :: f) = some ['/'] := by
    rw [pathrs_directory_split hdp' hr1]; rfl
  have hfn' : PathRs.filename (a ++ ':' :: '/' :: '/' :: f) =
      if f.isEmpty then none else some f :=
    pathrs_filename_split hdp' hr1
  have hext : PathRs.extension (a ++ ':' :: '/' :: '/' :: f) = PathRs.extension s :=
    pathrs_extension_congr (hfn'.trans hfn.symm)
  unfold PathRs.components
  rw [hds', hdir', hfn', hds, hdir, hfn, hext]

/-- Claim C4: for every string accepted by `Path::new`, concatenating the
derived components back together according to the grammar yields a string
that is again accepted and decomposes into exactly the same components
(structural round-trip; the result need not be byte-identical in the
root/empty-directory special cases). -/
theorem claim_C4 (s p : Str) (h : PathRs.new s = .ok p) :
    PathRs.new (PathRs.reconstruct p) = .ok (PathRs.reconstruct p) ∧
    PathRs.components (PathRs.reconstruct p) = PathRs.components p := by
  obtain ⟨hp, hne, hctl, hdisj⟩ := pathrs_new_ok_inv h
  subst hp
  rcases hdisj with ⟨hns, hsw⟩ | ⟨a, b, hseq, hna, h1, h2, h3⟩
  · -- relative path, no drive specifier
    cases hr : rsplitOnce '/' p with
    | none =>
      exact pathrs_roundtrip_rel_bare hne hns (not_mem_of_rsplitOnce_none hr) hctl
    | some q =>
      obtain ⟨d, f⟩ := q
      obtain ⟨hpe, hnf⟩ := rsplitOnce_spec hr
      have hd0 : d ≠ [] := by
        intro hd0
        rw [hd0] at hpe
        rw [hpe] at hsw
        simp [startsWith] at hsw
      have hdp : PathRs.drive_path p = some p := pathrs_drive_path_none hns
      have hds : PathRs.drive_specifier p = none := pathrs_drive_specifier_none hns
      have hde : d.isEmpty = false := by simpa using hd0
      have hdir : PathRs.directory p = some d := by
        rw [pathrs_directory_split hdp hr, hde]; rfl
      have hfn : PathRs.filename p = if f.isEmpty then none else some f :=
        pathrs_filename_split hdp hr
      have hrec : PathRs.reconstruct p = p := by
        unfold PathRs.reconstruct
        simp only [hds, hdir, hfn]
        by_cases hf : f.isEmpty
        · obtain rfl : f = [] := by simpa using hf
          simp [PathRs.PATH_SEP, hpe]
        · simp [PathRs.PATH_SEP, hf, hpe]
      rw [hrec]
      exact ⟨h, rfl⟩
  · -- absolute path with a drive specifier
    subst hseq
    have hds : PathRs.drive_specifier (a ++ ':' :: b) = some a :=
      pathrs_drive_specifier_split b hna
    rcases h3 with rfl | hswb
    · -- bare drive, empty remainder
      have hdp : PathRs.drive_path (a ++ ':' :: []) = some ('/' :: []) := by
        rw [pathrs_drive_path_split [] hna]; rfl
      refine pathrs_roundtrip_abs_root hds hdp (by decide) hna h1 (by decide) ?_
      apply any_isControl_false_of_subset hctl
      intro c hc
      simp only [List.mem_append, List.mem_cons, List.not_mem_nil, or_false] at hc ⊢
      tauto
    · -- remainder rooted at '/'
      cases b with
      | nil => simp [startsWith] at hswb
      | cons x t =>
        have hx : x = '/' := by simpa [startsWith] using hswb
        subst hx
        have hdp : PathRs.drive_path (a ++ ':' :: '/' :: t) = some ('/' :: t) := by
          rw [pathrs_drive_path_split ('/' :: t) hna]; rfl

        cases hr : rsplitOnce '/' ('/' :: t : Str) with
        | none =>
          exact absurd (not_mem_of_rsplitOnce_none hr) (by simp)
        | some q =>
          obtain ⟨d, f⟩ := q
          obtain ⟨hbe, hnf⟩ := rsplitOnce_spec hr
          cases d with
          | nil =>
            obtain rfl : t = f := by simpa using hbe
            refine pathrs_roundtrip_abs_root hds hdp hnf hna h1 ?_ ?_
            · intro hm
              exact h2 (List.mem_cons_of_mem '/' hm)
            · apply any_isControl_false_of_subset hctl
              intro c hc
              simp only [List.mem_append, List.mem_cons] at hc ⊢
              tauto
          | cons y d0 =>
            have hde : (y :: d0 : Str).isEmpty = false := rfl
            have hdir : PathRs.directory (a ++ ':' :: '/' :: t) = some (y :: d0) := by
              rw [pathrs_directory_split hdp hr, hde]; rfl
            have hfn : PathRs.filename (a ++ ':' :: '/' :: t) =
                if f.isEmpty then none else some f :=
              pathrs_filename_split hdp hr
            have hrec : PathRs.reconstruct (a ++ ':' :: '/' :: t) = a ++ ':' :: '/' :: t := by
              unfold PathRs.reconstruct
              simp only [hds, hdir, hfn]
              by_cases hf : f.isEmpty
              · obtain rfl : f = [] := by simpa using hf
                simp [PathRs.DRIVE_SEP, PathRs.PATH_SEP, hbe]
              · simp [PathRs.DRIVE_SEP, PathRs.PATH_SEP, hf, hbe]
            rw [hrec]
            exact ⟨h, rfl⟩

/-- Witness for C4 at the concrete accepted input `"HD0:"`: its
reconstruction parses to the same components. -/
theorem claim_C4_witness :
    PathRs.components (PathRs.reconstruct ['H', 'D', '0', ':']) =
      PathRs.components ['H', 'D', '0', ':'] :=
  (claim_C4 ['H', 'D', '0', ':'] ['H', 'D', '0', ':'] rfl).2

end NeotronApi
